import Mathlib

/-!
# Verification of the caching / admission-control / orchestration layer

Shallow embedding of the core concurrency-support modules of the
Career-plus backend (`cache_manager.py`, `rate_limiter.py`,
`batch_processor.py`) together with proofs of the specified properties.

Conventions:
* Python `float` timestamps are modelled as exact rationals (`ℚ`).
* Python `dict` / `OrderedDict` values are modelled as association lists
  that keep insertion order (front = oldest / least-recently-used);
  Python guarantees key uniqueness, which reachable states preserve.
* Fallible operations (`OrderedDict.popitem` on an empty dict raises
  `KeyError`, …) return `Option` / an error constructor.
-/

namespace CareerPlus

/-! ## `cache_manager.py` — class `LRUCache` -/

/-- One stored entry of `LRUCache.cache`: key, value, creation timestamp
(Python stores `(value, timestamp)` tuples in an `OrderedDict`). -/
abbrev Entry (V : Type) := String × V × ℚ

/-- The keys of the ordered mapping, least-recently-used first. -/
def keysOf {V : Type} (l : List (Entry V)) : List String :=
  l.map (fun e => e.1)

/-- Python `key in self.cache`. -/
def hasKey {V : Type} (l : List (Entry V)) (k : String) : Bool :=
  l.any (fun e => e.1 == k)

/-- Python `self.cache[key]` lookup, returning the `(value, timestamp)` pair. -/
def getEntry {V : Type} (l : List (Entry V)) (k : String) : Option (V × ℚ) :=
  match l.find? (fun e => e.1 == k) with
  | none => none
  | some e => some e.2

/-- Python `self.cache.move_to_end(key)`: remove the entry and re-insert it
at the most-recently-used end.  (At every call site the key is present.) -/
def moveToEnd {V : Type} (l : List (Entry V)) (k : String) : List (Entry V) :=
  match l.find? (fun e => e.1 == k) with
  | none => l
  | some e => l.eraseP (fun e => e.1 == k) ++ [e]

/-- Python `self.cache[key] = (value, timestamp)`: overwrite in place when the
key exists (a dict assignment keeps the position), append otherwise. -/
def setEntry {V : Type} (l : List (Entry V)) (k : String) (v : V) (t : ℚ) :
    List (Entry V) :=
  if hasKey l k then l.map (fun e => if e.1 == k then (k, v, t) else e)
  else l ++ [(k, v, t)]

/-- The expiry test `self.ttl and (time.time() - timestamp) > self.ttl`:
`None` and `0` are falsy in Python, so a zero TTL disables expiry. -/
def expired (ttl : Option ℤ) (age : ℚ) : Bool :=
  match ttl with
  | none => false
  | some t => t != 0 && age > (t : ℚ)

/-- State of `cache_manager.LRUCache` (the lock is irrelevant to the
sequential semantics; `hits` / `misses` are the counters). -/
structure LRUCache (V : Type) where
  max_size : ℕ
  ttl : Option ℤ
  cache : List (Entry V)
  hits : ℕ
  misses : ℕ

/-- A fresh cache as built by `LRUCache.__init__`. -/
def LRUCache.empty (V : Type) (max_size : ℕ) (ttl : Option ℤ) : LRUCache V :=
  { max_size := max_size, ttl := ttl, cache := [], hits := 0, misses := 0 }

/-- `LRUCache.get` (cache_manager.py lines 37-63): returns the value (or
`none`) together with the updated cache state. -/
def LRUCache.get {V : Type} (c : LRUCache V) (key : String) (now : ℚ) :
    Option V × LRUCache V :=
  match getEntry c.cache key with
  | none => (none, { c with misses := c.misses + 1 })
  | some (v, timestamp) =>
    if expired c.ttl (now - timestamp) then
      (none, { c with cache := c.cache.eraseP (fun e => e.1 == key),
                      misses := c.misses + 1 })
    else
      (some v, { c with cache := moveToEnd c.cache key, hits := c.hits + 1 })

/-- `LRUCache.set` (cache_manager.py lines 65-80).  When a new key arrives at
capacity, `self.cache.popitem(last=False)` evicts the head; on an empty
`OrderedDict` (only reachable with `max_size = 0`) `popitem` raises
`KeyError`, modelled by `none`. -/
def LRUCache.set {V : Type} (c : LRUCache V) (key : String) (v : V) (now : ℚ) :
    Option (LRUCache V) :=
  if ¬ hasKey c.cache key ∧ c.max_size ≤ c.cache.length then
    match c.cache with
    | [] => none
    | _ :: rest =>
      some { c with cache := moveToEnd (setEntry rest key v now) key }
  else
    some { c with cache := moveToEnd (setEntry c.cache key v now) key }

/-- Run a whole sequence of `set` calls (left to right). -/
def applySets {V : Type} (c : LRUCache V) : List (String × V × ℚ) → Option (LRUCache V)
  | [] => some c
  | (k, v, t) :: rest =>
    match c.set k v t with
    | none => none
    | some c' => applySets c' rest

/-- The effect of one `set` on the key list alone (LRU order, head = oldest). -/
def keyStep (max : ℕ) (ks : List String) (k : String) : List String :=
  if k ∈ ks then ks.erase k ++ [k]
  else if max ≤ ks.length then ks.tail ++ [k]
  else ks ++ [k]

/-- Recency order of the keys of a sequence of `set` calls: each use moves the
key to the most-recent (right) end. -/
def mruStep (acc : List String) (k : String) : List String := acc.erase k ++ [k]

/-- All keys of a sequence ordered by the recency of their last use. -/
def mruKeys (seq : List String) : List String := seq.foldl mruStep []

/-- The last `n` elements of a list. -/
def rtake {α : Type} (n : ℕ) (l : List α) : List α := l.drop (l.length - n)

/-- Spec-side definition, following the spec's words: "the surviving entries
are exactly the most-recently-used `max_size` keys" — the `max` keys of the
sequence most recently set. -/
def specMostRecentKeys (max : ℕ) (seq : List String) : List String :=
  rtake max (mruKeys seq)

example :
    (applySets (LRUCache.empty ℕ 2 none)
      [("a", 1, 0), ("b", 2, 1), ("a", 3, 2), ("c", 4, 3), ("b", 5, 4)]).map
      (fun c => keysOf c.cache) = some ["c", "b"] := by decide

example : specMostRecentKeys 2 ["a", "b", "a", "c", "b"] = ["c", "b"] := by decide

lemma hasKey_iff {V : Type} (l : List (Entry V)) (k : String) :
    hasKey l k = true ↔ k ∈ keysOf l := by
  unfold hasKey keysOf
  rw [List.any_eq_true]
  simp only [beq_iff_eq, List.mem_map]

lemma keysOf_append {V : Type} (l₁ l₂ : List (Entry V)) :
    keysOf (l₁ ++ l₂) = keysOf l₁ ++ keysOf l₂ := by
  simp [keysOf]

lemma keysOf_eraseP {V : Type} (l : List (Entry V)) (k : String) :
    keysOf (l.eraseP (fun e => e.1 == k)) = (keysOf l).erase k := by
  induction l with
  | nil => rfl
  | cons a l ih =>
    by_cases h : a.1 = k
    · simp [List.eraseP_cons, keysOf, h, List.erase_cons]
    · have hb : (a.1 == k) = false := by simp [h]
      simp only [List.eraseP_cons, hb, cond_false]
      show a.1 :: keysOf (List.eraseP (fun e => e.1 == k) l) = (a.1 :: keysOf l).erase k
      rw [List.erase_cons, if_neg (by simp [h]), ih]

lemma keysOf_moveToEnd {V : Type} (l : List (Entry V)) (k : String)
    (h : k ∈ keysOf l) :
    keysOf (moveToEnd l k) = (keysOf l).erase k ++ [k] := by
  unfold moveToEnd
  cases hf : l.find? (fun e => e.1 == k) with
  | none =>
    rw [List.find?_eq_none] at hf
    obtain ⟨e, he, hek⟩ := List.mem_map.mp h
    exact absurd (by simp [hek]) (hf e he)
  | some e =>
    have hek : e.1 = k := by simpa using List.find?_some hf
    rw [keysOf_append, keysOf_eraseP]
    simp [keysOf, hek]

lemma keysOf_setEntry {V : Type} (l : List (Entry V)) (k : String) (v : V) (t : ℚ) :
    keysOf (setEntry l k v t) =
      if hasKey l k then keysOf l else keysOf l ++ [k] := by
  unfold setEntry
  by_cases h : hasKey l k
  · have hf : (fun (e : Entry V) => (if e.1 == k then ((k, v, t) : Entry V) else e).1) =
        fun (e : Entry V) => e.1 := by
      funext e
      by_cases he : e.1 = k <;> simp [he]
    simp only [h, if_true, keysOf, List.map_map]
    rw [show ((fun (e : Entry V) => e.1) ∘
        fun e => if e.1 == k then ((k, v, t) : Entry V) else e) =
        fun (e : Entry V) => (if e.1 == k then ((k, v, t) : Entry V) else e).1 from rfl, hf]
  · simp [h, keysOf_append, keysOf]

lemma moveToEnd_cons {V : Type} (a : Entry V) (l : List (Entry V)) (k : String)
    (h : ¬ a.1 = k) : moveToEnd (a :: l) k = a :: moveToEnd l k := by
  unfold moveToEnd
  have hb : (a.1 == k) = false := by simp [h]
  rw [List.find?_cons]
  simp only [hb, cond_false]
  cases hf : l.find? (fun e => e.1 == k) with
  | none => rfl
  | some e => simp [List.eraseP_cons, hb]

lemma moveToEnd_fresh {V : Type} (l : List (Entry V)) (k : String) (v : V) (t : ℚ)
    (h : k ∉ keysOf l) : moveToEnd (l ++ [(k, v, t)]) k = l ++ [(k, v, t)] := by
  induction l with
  | nil => simp [moveToEnd, List.find?, List.eraseP]
  | cons a l ih =>
    have ha : ¬ a.1 = k := fun hak => by
      rw [show keysOf (a :: l) = a.1 :: keysOf l from rfl, hak] at h
      exact h (List.mem_cons_self k _)
    have hl : k ∉ keysOf l := fun hk => h (List.mem_cons_of_mem _ hk)
    rw [List.cons_append, moveToEnd_cons a _ k ha, ih hl]

lemma setEntry_of_fresh {V : Type} (l : List (Entry V)) (k : String) (v : V) (t : ℚ)
    (h : hasKey l k = false) : setEntry l k v t = l ++ [(k, v, t)] := by
  unfold setEntry
  simp [h]

lemma length_keysOf {V : Type} (l : List (Entry V)) :
    (keysOf l).length = l.length := by
  simp [keysOf]

lemma not_mem_keysOf_of_hasKey_false {V : Type} {l : List (Entry V)} {k : String}
    (h : hasKey l k = false) : k ∉ keysOf l := fun hm => by
  rw [(hasKey_iff l k).mpr hm] at h
  cases h

/-- A `set` call on a cache of positive capacity always succeeds and changes
the key list by `keyStep`. -/
lemma set_ok {V : Type} (c : LRUCache V) (k : String) (v : V) (now : ℚ)
    (hpos : 0 < c.max_size) :
    ∃ c', c.set k v now = some c' ∧ c'.max_size = c.max_size ∧ c'.ttl = c.ttl ∧
      keysOf c'.cache = keyStep c.max_size (keysOf c.cache) k := by
  unfold LRUCache.set
  by_cases hk : hasKey c.cache k
  · rw [if_neg (fun hc => hc.1 hk)]
    refine ⟨_, rfl, rfl, rfl, ?_⟩
    have hmem : k ∈ keysOf c.cache := (hasKey_iff _ _).mp hk
    have hmem' : k ∈ keysOf (setEntry c.cache k v now) := by
      rw [keysOf_setEntry, if_pos hk]
      exact hmem
    rw [keysOf_moveToEnd _ _ hmem', keysOf_setEntry, if_pos hk]
    unfold keyStep
    rw [if_pos hmem]
  · have hkf : hasKey c.cache k = false := by
      cases hb : hasKey c.cache k
      · rfl
      · exact absurd hb hk
    have hmem : k ∉ keysOf c.cache := not_mem_keysOf_of_hasKey_false hkf
    by_cases hlen : c.max_size ≤ c.cache.length
    · rw [if_pos ⟨hk, hlen⟩]
      cases hc : c.cache with
      | nil =>
        rw [hc] at hlen
        simp at hlen
        omega
      | cons e rest =>
        rw [hc] at hkf hmem hlen
        have hkrest : hasKey rest k = false := by
          rw [hasKey, List.any_cons] at hkf
          exact (Bool.or_eq_false_iff.mp hkf).2
        have hkrest' : k ∉ keysOf rest :=
          not_mem_keysOf_of_hasKey_false hkrest
        refine ⟨_, rfl, rfl, rfl, ?_⟩
        rw [setEntry_of_fresh _ _ _ _ hkrest, moveToEnd_fresh _ _ _ _ hkrest',
          keysOf_append]
        unfold keyStep
        rw [if_neg hmem, if_pos (by rw [length_keysOf]; simpa using hlen)]
        simp [keysOf]
    · rw [if_neg (fun hc => hlen hc.2)]
      refine ⟨_, rfl, rfl, rfl, ?_⟩
      rw [setEntry_of_fresh _ _ _ _ hkf, moveToEnd_fresh _ _ _ _ hmem,
        keysOf_append]
      unfold keyStep
      rw [if_neg hmem, if_neg (by rw [length_keysOf]; exact hlen)]
      simp [keysOf]

/-- Inserting a new key at capacity evicts exactly the least-recently-used
entry (the head) and nothing else. -/
lemma set_evicts {V : Type} (c : LRUCache V) (k : String) (v : V) (now : ℚ)
    (hk : hasKey c.cache k = false) (hlen : c.max_size ≤ c.cache.length)
    (hpos : 0 < c.max_size) :
    c.set k v now = some { c with cache := c.cache.tail ++ [(k, v, now)] } := by
  unfold LRUCache.set
  rw [if_pos ⟨by simp [hk], hlen⟩]
  cases hc : c.cache with
  | nil =>
    rw [hc] at hlen
    simp at hlen
    omega
  | cons e rest =>
    rw [hc] at hk
    have hkrest : hasKey rest k = false := by
      rw [hasKey, List.any_cons] at hk
      exact (Bool.or_eq_false_iff.mp hk).2
    have hkrest' : k ∉ keysOf rest :=
      not_mem_keysOf_of_hasKey_false hkrest
    show some { c with cache := moveToEnd (setEntry rest k v now) k } =
      some { c with cache := (e :: rest).tail ++ [(k, v, now)] }
    rw [setEntry_of_fresh _ _ _ _ hkrest, moveToEnd_fresh _ _ _ _ hkrest']
    rfl

lemma rtake_of_le {α : Type} {n : ℕ} {l : List α} (h : l.length ≤ n) :
    rtake n l = l := by
  simp [rtake, Nat.sub_eq_zero_of_le h]

lemma rtake_append_right {α : Type} (A X : List α) (max : ℕ)
    (h : max ≤ X.length) : rtake max (A ++ X) = rtake max X := by
  unfold rtake
  rw [List.length_append,
    show A.length + X.length - max = A.length + (X.length - max) from by omega,
    List.drop_append]

lemma rtake_eq_tail_append {α : Type} (B : List α) (x : α) (max : ℕ)
    (hB : B.length = max) (hm : 0 < max) :
    rtake max (B ++ [x]) = B.tail ++ [x] := by
  cases B with
  | nil =>
    rw [List.length_nil] at hB
    omega
  | cons b B' =>
    unfold rtake
    rw [show ((b :: B') ++ [x]).length - max = 1 from by simp at hB ⊢; omega]
    rfl

lemma mruStep_nodup {D : List String} (hD : D.Nodup) (k : String) :
    (mruStep D k).Nodup := by
  unfold mruStep
  rw [List.nodup_append]
  refine ⟨hD.erase k, List.nodup_singleton k, fun a ha hb => ?_⟩
  rw [List.mem_singleton] at hb
  subst hb
  exact hD.not_mem_erase ha

/-- Central LRU lemma: one `set` on the surviving (most recent `max`) keys of
a recency list `D` tracks the recency update of `D` itself. -/
lemma keyStep_rtake (D : List String) (k : String) (max : ℕ)
    (hD : D.Nodup) (hm : 0 < max) :
    keyStep max (rtake max D) k = rtake max (mruStep D k) := by
  by_cases hcase : D.length ≤ max
  · -- the whole recency list fits in the cache
    rw [rtake_of_le hcase]
    unfold keyStep mruStep
    by_cases hk : k ∈ D
    · rw [if_pos hk, rtake_of_le]
      rw [List.length_append, List.length_erase_of_mem hk]
      have : 1 ≤ D.length := List.length_pos.mpr (List.ne_nil_of_mem hk)
      simp
      omega
    · rw [if_neg hk, List.erase_of_not_mem hk]
      by_cases hl : max ≤ D.length
      · -- then D.length = max: still fits after appending? no: tail branch
        rw [if_pos hl, rtake_eq_tail_append D k max (le_antisymm hcase hl) hm]
      · rw [if_neg hl, rtake_of_le]
        simp
        omega
  · -- the recency list is longer than the capacity
    have hmn : max ≤ D.length := le_of_not_le hcase
    set A := D.take (D.length - max) with hA
    set B := D.drop (D.length - max) with hB
    have hAB : A ++ B = D := List.take_append_drop _ _
    have lenA : A.length = D.length - max := by
      rw [hA, List.length_take]
      omega
    have lenB : B.length = max := by
      rw [hB, List.length_drop]
      omega
    have hrt : rtake max D = B := rfl
    rw [hrt]
    unfold keyStep mruStep
    by_cases hk : k ∈ B
    · -- key among the surviving part: in-place refresh
      have hkA : k ∉ A := by
        intro hka
        have hnd : (A ++ B).Nodup := by rw [hAB]; exact hD
        exact (List.nodup_append.mp hnd).2.2 hka hk
      rw [if_pos hk, ← hAB, List.erase_append_right _ hkA, List.append_assoc,
        rtake_append_right, rtake_of_le]
      · rw [List.length_append, List.length_erase_of_mem hk]
        simp
        omega
      · rw [List.length_append, List.length_erase_of_mem hk]
        simp
        omega
    · -- new key for the cache: evict the head of B
      rw [if_neg hk, if_pos (by rw [lenB])]
      by_cases hkD : k ∈ D
      · have hkA : k ∈ A := by
          rw [← hAB] at hkD
          rcases List.mem_append.mp hkD with h | h
          · exact h
          · exact absurd h hk
        rw [← hAB, List.erase_append_left _ hkA, List.append_assoc,
          rtake_append_right _ _ _ (by rw [List.length_append, lenB]; simp),
          rtake_eq_tail_append B k max lenB hm]
      · rw [List.erase_of_not_mem hkD, ← hAB, List.append_assoc,
          rtake_append_right _ _ _ (by rw [List.length_append, lenB]; simp),
          rtake_eq_tail_append B k max lenB hm]

/-- Folding a whole sequence of `set` calls preserves the invariant that the
cache keys are the last `max_size` entries of the recency order. -/
lemma applySets_keys {V : Type} :
    ∀ (seq : List (String × V × ℚ)) (c : LRUCache V) (D : List String),
      0 < c.max_size → D.Nodup → keysOf c.cache = rtake c.max_size D →
      ∃ c', applySets c seq = some c' ∧ c'.max_size = c.max_size ∧
        keysOf c'.cache =
          rtake c.max_size (seq.foldl (fun acc e => mruStep acc e.1) D) := by
  intro seq
  induction seq with
  | nil =>
    intro c D h hD hkeys
    exact ⟨c, rfl, rfl, by simpa using hkeys⟩
  | cons e rest ih =>
    intro c D h hD hkeys
    obtain ⟨k, v, t⟩ := e
    obtain ⟨c₁, hset, hmax, _, hk1⟩ := set_ok c k v t h
    rw [hkeys, keyStep_rtake D k c.max_size hD h] at hk1
    obtain ⟨c₂, happ, hmax2, hk2⟩ :=
      ih c₁ (mruStep D k) (by rw [hmax]; exact h) (mruStep_nodup hD k)
        (by rw [hmax]; exact hk1)
    refine ⟨c₂, ?_, by rw [hmax2, hmax], ?_⟩
    · show applySets c ((k, v, t) :: rest) = some c₂
      unfold applySets
      rw [hset]
      exact happ
    · rw [hk2, hmax]
      rfl

lemma length_rtake_le {α : Type} (n : ℕ) (l : List α) :
    (rtake n l).length ≤ n := by
  rw [rtake, List.length_drop]
  omega

/-- C1: for every sequence of `set` calls on an `LRUCache` of positive
capacity `max_size`, the size never exceeds `max_size` and the surviving keys
after the whole sequence are exactly the most-recently-used `max_size` keys;
moreover a `set` that inserts a new key into a cache at capacity evicts
exactly the least-recently-used (head) entry, leaving every other entry in
place. -/
theorem lru_capacity_and_eviction (V : Type) :
    (∀ (max : ℕ) (ttl : Option ℤ) (seq : List (String × V × ℚ)), 0 < max →
      ∃ c, applySets (LRUCache.empty V max ttl) seq = some c ∧
        c.cache.length ≤ max ∧
        keysOf c.cache = specMostRecentKeys max (seq.map (fun e => e.1))) ∧
    (∀ (c : LRUCache V) (k : String) (v : V) (now : ℚ),
      hasKey c.cache k = false → c.cache.length = c.max_size →
      0 < c.max_size →
      c.set k v now = some { c with cache := c.cache.tail ++ [(k, v, now)] }) := by
  constructor
  · intro max ttl seq hpos
    obtain ⟨c, happ, hmax, hkeys⟩ :=
      applySets_keys seq (LRUCache.empty V max ttl) [] hpos List.nodup_nil
        (by simp [rtake, keysOf, LRUCache.empty])
    refine ⟨c, happ, ?_, ?_⟩
    · have := length_rtake_le max (seq.foldl (fun acc e => mruStep acc e.1) [])
      rw [← length_keysOf c.cache, hkeys]
      simpa using this
    · rw [hkeys, specMostRecentKeys, mruKeys, List.foldl_map]
      rfl
  · intro c k v now hk hlen hpos
    exact set_evicts c k v now hk (le_of_eq hlen.symm) hpos

/-- Witness for C1 at a concrete run: capacity 2, five `set` calls. -/
theorem lru_capacity_and_eviction_witness :
    (∃ c, applySets (LRUCache.empty ℕ 2 none)
        [("a", 1, 0), ("b", 2, 1), ("a", 3, 2), ("c", 4, 3), ("b", 5, 4)] =
          some c ∧
        c.cache.length ≤ 2 ∧
        keysOf c.cache = specMostRecentKeys 2 ["a", "b", "a", "c", "b"]) ∧
    LRUCache.set ⟨2, none, [("a", 1, 0), ("b", 2, 1)], 0, 0⟩ "c" (3 : ℕ) 2 =
      some ⟨2, none, [("b", 2, 1), ("c", 3, 2)], 0, 0⟩ := by
  constructor
  · have h := (lru_capacity_and_eviction ℕ).1 2 none
      [("a", 1, 0), ("b", 2, 1), ("a", 3, 2), ("c", 4, 3), ("b", 5, 4)]
      (by decide)
    simpa using h
  · have h := (lru_capacity_and_eviction ℕ).2
      ⟨2, none, [("a", 1, 0), ("b", 2, 1)], 0, 0⟩ "c" 3 2
      (by decide) (by decide) (by decide)
    exact h

lemma get_missing {V : Type} (c : LRUCache V) (k : String) (now : ℚ)
    (h : getEntry c.cache k = none) :
    c.get k now = (none, { c with misses := c.misses + 1 }) := by
  unfold LRUCache.get
  rw [h]

lemma get_found {V : Type} (c : LRUCache V) (k : String) (v : V) (ts now : ℚ)
    (h : getEntry c.cache k = some (v, ts)) :
    c.get k now =
      if expired c.ttl (now - ts) then
        (none, { c with cache := c.cache.eraseP (fun e => e.1 == k),
                        misses := c.misses + 1 })
      else
        (some v, { c with cache := moveToEnd c.cache k, hits := c.hits + 1 }) := by
  unfold LRUCache.get
  rw [h]

lemma moveToEnd_eq_of_getEntry {V : Type} {c : List (Entry V)} {k : String}
    {v : V} {ts : ℚ} (h : getEntry c k = some (v, ts)) :
    moveToEnd c k = c.eraseP (fun e => e.1 == k) ++ [(k, v, ts)] := by
  unfold getEntry at h
  unfold moveToEnd
  cases hf : c.find? (fun e => e.1 == k) with
  | none =>
    rw [hf] at h
    cases h
  | some e =>
    rw [hf] at h
    have he1 : e.1 = k := by simpa using List.find?_some hf
    have he2 : e.2 = (v, ts) := by
      injection h
    have he : e = (k, v, ts) := by
      obtain ⟨e1, e2⟩ := e
      simp only at he1 he2
      rw [he1, he2]
    rw [he]

lemma get_max_size {V : Type} (c : LRUCache V) (k : String) (now : ℚ) :
    (c.get k now).2.max_size = c.max_size ∧ (c.get k now).2.ttl = c.ttl := by
  unfold LRUCache.get
  cases h : getEntry c.cache k with
  | none => exact ⟨rfl, rfl⟩
  | some vt =>
    obtain ⟨v, ts⟩ := vt
    dsimp only
    split <;> exact ⟨rfl, rfl⟩

/-- C2 (amended): for a cache with a configured nonzero TTL, `get` on an
entry older than the TTL returns absent, lazily evicts it and counts a miss;
`get` on a present, unexpired entry returns the value, moves it to the
most-recently-used end and counts a hit; and every `get` call increments
exactly one of the two counters exactly once. -/
theorem lru_get_ttl_semantics (V : Type) :
    (∀ (c : LRUCache V) (k : String) (v : V) (ts now : ℚ) (t : ℤ),
      c.ttl = some t → t ≠ 0 → getEntry c.cache k = some (v, ts) →
      now - ts > (t : ℚ) →
      (c.get k now).1 = none ∧
      (c.get k now).2.cache = c.cache.eraseP (fun e => e.1 == k) ∧
      (c.get k now).2.misses = c.misses + 1 ∧
      (c.get k now).2.hits = c.hits) ∧
    (∀ (c : LRUCache V) (k : String) (v : V) (ts now : ℚ) (t : ℤ),
      c.ttl = some t → getEntry c.cache k = some (v, ts) →
      now - ts ≤ (t : ℚ) →
      (c.get k now).1 = some v ∧
      (c.get k now).2.cache = c.cache.eraseP (fun e => e.1 == k) ++ [(k, v, ts)] ∧
      (c.get k now).2.hits = c.hits + 1 ∧
      (c.get k now).2.misses = c.misses) ∧
    (∀ (c : LRUCache V) (k : String) (now : ℚ),
      ((c.get k now).2.hits = c.hits + 1 ∧ (c.get k now).2.misses = c.misses) ∨
      ((c.get k now).2.misses = c.misses + 1 ∧ (c.get k now).2.hits = c.hits)) := by
  refine ⟨?_, ?_, ?_⟩
  · intro c k v ts now t httl hne hentry hage
    have hexp : expired c.ttl (now - ts) = true := by
      rw [httl]
      unfold expired
      simp [hne, hage]
    rw [get_found c k v ts now hentry, if_pos hexp]
    exact ⟨rfl, rfl, rfl, rfl⟩
  · intro c k v ts now t httl hentry hage
    have hexp : expired c.ttl (now - ts) = false := by
      rw [httl]
      unfold expired
      have hnl : ¬ ((t : ℚ) < now - ts) := not_lt.mpr hage
      simp [hnl]
    rw [get_found c k v ts now hentry, if_neg (by simp [hexp])]
    exact ⟨rfl, moveToEnd_eq_of_getEntry hentry, rfl, rfl⟩
  · intro c k now
    cases hentry : getEntry c.cache k with
    | none =>
      rw [get_missing c k now hentry]
      exact Or.inr ⟨rfl, rfl⟩
    | some vt =>
      obtain ⟨v, ts⟩ := vt
      rw [get_found c k v ts now hentry]
      by_cases hexp : expired c.ttl (now - ts)
      · rw [if_pos hexp]
        exact Or.inr ⟨rfl, rfl⟩
      · rw [if_neg hexp]
        exact Or.inl ⟨rfl, rfl⟩

/-- Counterexample to C2 as stated: with a configured TTL of `0` the Python
truthiness test `if self.ttl and ...` disables expiry, so a `get` on an entry
whose age (5) exceeds the TTL (0) still returns the value as a hit instead of
absent. -/
theorem lru_get_ttl_zero_counterexample :
    ((⟨10, some 0, [("k", 7, 0)], 0, 0⟩ : LRUCache ℕ).ttl = some 0) ∧
    ((5 : ℚ) - 0 > ((0 : ℤ) : ℚ)) ∧
    ((LRUCache.get (⟨10, some 0, [("k", 7, 0)], 0, 0⟩ : LRUCache ℕ) "k" 5).1 =
      some 7) ∧
    ((LRUCache.get (⟨10, some 0, [("k", 7, 0)], 0, 0⟩ : LRUCache ℕ) "k" 5).1 ≠
      none) ∧
    ((LRUCache.get (⟨10, some 0, [("k", 7, 0)], 0, 0⟩ : LRUCache ℕ) "k" 5).2.hits
      = 1) := by
  refine ⟨rfl, by norm_num, ?_, ?_, ?_⟩ <;> decide

/-- Witness for C2 (amended) at a concrete cache with TTL 3. -/
theorem lru_get_ttl_semantics_witness :
    ((LRUCache.get (⟨10, some 3, [("k", 7, 0)], 0, 0⟩ : LRUCache ℕ) "k" 4).1 =
        none ∧
      (LRUCache.get (⟨10, some 3, [("k", 7, 0)], 0, 0⟩ : LRUCache ℕ) "k" 4).2.cache
        = [("k", 7, 0)].eraseP (fun e => e.1 == "k") ∧
      (LRUCache.get (⟨10, some 3, [("k", 7, 0)], 0, 0⟩ : LRUCache ℕ) "k" 4).2.misses
        = 0 + 1 ∧
      (LRUCache.get (⟨10, some 3, [("k", 7, 0)], 0, 0⟩ : LRUCache ℕ) "k" 4).2.hits
        = 0) ∧
    ((LRUCache.get (⟨10, some 3, [("k", 7, 0)], 0, 0⟩ : LRUCache ℕ) "k" 2).1 =
        some 7 ∧
      (LRUCache.get (⟨10, some 3, [("k", 7, 0)], 0, 0⟩ : LRUCache ℕ) "k" 2).2.cache
        = [("k", 7, 0)].eraseP (fun e => e.1 == "k") ++ [("k", 7, 0)] ∧
      (LRUCache.get (⟨10, some 3, [("k", 7, 0)], 0, 0⟩ : LRUCache ℕ) "k" 2).2.hits
        = 0 + 1 ∧
      (LRUCache.get (⟨10, some 3, [("k", 7, 0)], 0, 0⟩ : LRUCache ℕ) "k" 2).2.misses
        = 0) ∧
    (((LRUCache.get (⟨10, some 3, [("k", 7, 0)], 0, 0⟩ : LRUCache ℕ) "k" 4).2.hits
        = 0 + 1 ∧
      (LRUCache.get (⟨10, some 3, [("k", 7, 0)], 0, 0⟩ : LRUCache ℕ) "k" 4).2.misses
        = 0) ∨
      ((LRUCache.get (⟨10, some 3, [("k", 7, 0)], 0, 0⟩ : LRUCache ℕ) "k" 4).2.misses
        = 0 + 1 ∧
      (LRUCache.get (⟨10, some 3, [("k", 7, 0)], 0, 0⟩ : LRUCache ℕ) "k" 4).2.hits
        = 0)) :=
  ⟨(lru_get_ttl_semantics ℕ).1 ⟨10, some 3, [("k", 7, 0)], 0, 0⟩ "k" 7 0 4 3
      rfl (by decide) (by decide) (by norm_num),
    (lru_get_ttl_semantics ℕ).2.1 ⟨10, some 3, [("k", 7, 0)], 0, 0⟩ "k" 7 0 2 3
      rfl (by decide) (by norm_num),
    (lru_get_ttl_semantics ℕ).2.2 ⟨10, some 3, [("k", 7, 0)], 0, 0⟩ "k" 4⟩

/-! ### The `cached` decorator (cache_manager.py lines 230-271)

The wrapper reads via `cache.get`; a Python `None` result — whether from a
miss, an expired entry, or a stored `None` value — falls through to calling
the wrapped function and re-caching.  The stored value type is `Option β` so
that the Python value `None` is representable; the Python-visible result of
`cache.get` is the `Option.join` of the model's result.  The returned `Bool`
records whether the wrapped function was invoked; `none` models the
`KeyError` that `set` raises when `max_size = 0`. -/

def cachedWrapper {β : Type} (c : LRUCache (Option β)) (key : String) (now : ℚ)
    (fres : Option β) : Option (Option β × LRUCache (Option β) × Bool) :=
  match ((c.get key now).1).join with
  | some v => some (some v, (c.get key now).2, false)
  | none =>
    match ((c.get key now).2).set key fres now with
    | none => none
    | some c2 => some (fres, c2, true)

lemma cachedWrapper_hit {β : Type} (c : LRUCache (Option β)) (key : String)
    (now : ℚ) (fres : Option β) (v : β)
    (h : ((c.get key now).1).join = some v) :
    cachedWrapper c key now fres = some (some v, (c.get key now).2, false) := by
  unfold cachedWrapper
  rw [h]

lemma cachedWrapper_miss {β : Type} (c : LRUCache (Option β)) (key : String)
    (now : ℚ) (fres : Option β)
    (h : ((c.get key now).1).join = none) :
    cachedWrapper c key now fres =
      match ((c.get key now).2).set key fres now with
      | none => none
      | some c2 => some (fres, c2, true) := by
  unfold cachedWrapper
  rw [h]

/-- C10: a stored `None` value is a cache hit internally (hit counter moves)
but is indistinguishable from a miss at the interface (`join` of the result
is `None` either way), and the `cached` decorator therefore re-invokes the
wrapped function on every call whose memoized result is `None`, never serving
a `None` from the cache. -/
theorem cached_none_sentinel (β : Type) :
    (∀ (c : LRUCache (Option β)) (k : String) (ts now : ℚ),
      getEntry c.cache k = some (none, ts) →
      expired c.ttl (now - ts) = false →
      (c.get k now).1 = some none ∧ Option.join (c.get k now).1 = none ∧
      (c.get k now).2.hits = c.hits + 1) ∧
    (∀ (c : LRUCache (Option β)) (k : String) (now : ℚ),
      getEntry c.cache k = none → Option.join (c.get k now).1 = none) ∧
    (∀ (c : LRUCache (Option β)) (k : String) (ts now : ℚ) (fres : Option β),
      getEntry c.cache k = some (none, ts) → 0 < c.max_size →
      ∃ c2, cachedWrapper c k now fres = some (fres, c2, true)) ∧
    (∀ (c : LRUCache (Option β)) (k : String) (now : ℚ)
      (fres res : Option β) (c2 : LRUCache (Option β)),
      cachedWrapper c k now fres = some (res, c2, false) → res ≠ none) := by
  refine ⟨?_, ?_, ?_, ?_⟩
  · intro c k ts now hentry hexp
    rw [get_found c k none ts now hentry, if_neg (by simp [hexp])]
    exact ⟨rfl, rfl, rfl⟩
  · intro c k now hentry
    rw [get_missing c k now hentry]
    rfl
  · intro c k ts now fres hentry hpos
    have hj : ((c.get k now).1).join = none := by
      by_cases hexp : expired c.ttl (now - ts)
      · rw [get_found c k none ts now hentry, if_pos hexp]
        rfl
      · rw [get_found c k none ts now hentry, if_neg hexp]
        rfl
    rw [cachedWrapper_miss c k now fres hj]
    obtain ⟨c2, hset, -, -, -⟩ := set_ok ((c.get k now).2) k fres now
      (by rw [(get_max_size c k now).1]; exact hpos)
    rw [hset]
    exact ⟨c2, rfl⟩
  · intro c k now fres res c2 h
    cases hj : ((c.get k now).1).join with
    | none =>
      rw [cachedWrapper_miss c k now fres hj] at h
      cases hset : ((c.get k now).2).set k fres now with
      | none =>
        rw [hset] at h
        cases h
      | some c3 =>
        rw [hset] at h
        simp at h
    | some v =>
      rw [cachedWrapper_hit c k now fres v hj] at h
      simp only [Option.some_inj, Prod.mk.injEq] at h
      obtain ⟨h1, -⟩ := h
      simp [← h1]

/-- Witness for C10: a cache holding the value `None` under key `"k"`. -/
theorem cached_none_sentinel_witness :
    ((LRUCache.get (⟨10, none, [("k", (none : Option ℕ), 0)], 0, 0⟩ :
        LRUCache (Option ℕ)) "k" 5).1 = some none ∧
      Option.join (LRUCache.get (⟨10, none, [("k", (none : Option ℕ), 0)], 0, 0⟩ :
        LRUCache (Option ℕ)) "k" 5).1 = none ∧
      (LRUCache.get (⟨10, none, [("k", (none : Option ℕ), 0)], 0, 0⟩ :
        LRUCache (Option ℕ)) "k" 5).2.hits = 0 + 1) ∧
    (Option.join (LRUCache.get (⟨10, none, [("k", (none : Option ℕ), 0)], 0, 0⟩ :
        LRUCache (Option ℕ)) "x" 5).1 = none) ∧
    (∃ c2, cachedWrapper (⟨10, none, [("k", (none : Option ℕ), 0)], 0, 0⟩ :
        LRUCache (Option ℕ)) "k" 5 (some 42) = some (some 42, c2, true)) ∧
    ((some 1 : Option ℕ) ≠ none) :=
  ⟨(cached_none_sentinel ℕ).1 ⟨10, none, [("k", none, 0)], 0, 0⟩ "k" 0 5
      (by decide) rfl,
    (cached_none_sentinel ℕ).2.1 ⟨10, none, [("k", none, 0)], 0, 0⟩ "x" 5
      (by decide),
    (cached_none_sentinel ℕ).2.2.1 ⟨10, none, [("k", none, 0)], 0, 0⟩ "k" 0 5
      (some 42) (by decide) (by decide),
    (cached_none_sentinel ℕ).2.2.2 ⟨10, none, [("k", some 1, 0)], 0, 0⟩ "k" 5
      (some 9) (some 1) ⟨10, none, [("k", some 1, 0)], 1, 0⟩ rfl⟩

/-! ## `rate_limiter.py` — the `rate_limit` decorator

One client's state is its timestamp deque (`request_history[client_ip]`),
oldest first.  Python `time.time()` floats are exact rationals here. -/

/-- Python `int(x)`: truncation toward zero. -/
def pyInt (x : ℚ) : ℤ := if x < 0 then -⌊-x⌋ else ⌊x⌋

/-- Outcome of one admission check; `indexError` models `history[0]` raising
on an empty deque (reachable only with `max_requests = 0`). -/
inductive RLOutcome where
  | admitted : RLOutcome
  | rejected : ℤ → RLOutcome
  | indexError : RLOutcome
deriving DecidableEq

/-- The pruning loop (rate_limiter.py lines 64-65): pop from the left while
the head is older than `now - window_seconds`. -/
def pruneQ (window_seconds now : ℚ) (history : List ℚ) : List ℚ :=
  history.dropWhile (fun t => decide (t < now - window_seconds))

/-- One admission check for one client (rate_limiter.py lines 56-80): prune,
compare against `max_requests`, then either raise 429 with the computed
`retry_after` or append `now`.  Returns the outcome and the new deque. -/
def rate_limit (max_requests : ℕ) (window_seconds : ℚ) (history : List ℚ)
    (now : ℚ) : RLOutcome × List ℚ :=
  if max_requests ≤ (pruneQ window_seconds now history).length then
    match pruneQ window_seconds now history with
    | [] => (RLOutcome.indexError, [])
    | oldest :: rest =>
      (RLOutcome.rejected (pyInt (window_seconds - (now - oldest)) + 1),
        oldest :: rest)
  else
    (RLOutcome.admitted, pruneQ window_seconds now history ++ [now])

/-- A whole sequence of admission checks for one client, collecting the
outcomes and threading the deque. -/
def runRequests (max_requests : ℕ) (window_seconds : ℚ) :
    List ℚ → List ℚ → List RLOutcome × List ℚ
  | history, [] => ([], history)
  | history, t :: ts =>
    ((rate_limit max_requests window_seconds history t).1 ::
        (runRequests max_requests window_seconds
          (rate_limit max_requests window_seconds history t).2 ts).1,
      (runRequests max_requests window_seconds
        (rate_limit max_requests window_seconds history t).2 ts).2)

lemma dropWhile_head_false {α : Type} (p : α → Bool) :
    ∀ (l : List α) (a : α) (rest : List α),
      l.dropWhile p = a :: rest → p a = false := by
  intro l
  induction l with
  | nil =>
    intro a rest h
    cases h
  | cons x xs ih =>
    intro a rest h
    rw [List.dropWhile_cons] at h
    by_cases hx : p x
    · rw [if_pos hx] at h
      exact ih a rest h
    · rw [if_neg hx] at h
      injection h with h1 h2
      subst h1
      cases hpx : p x with
      | false => rfl
      | true => exact absurd hpx hx

lemma pruneQ_length_le (w now : ℚ) (hist : List ℚ) :
    (pruneQ w now hist).length ≤ hist.length :=
  (List.dropWhile_sublist _).length_le

lemma rate_limit_admits {maxR : ℕ} {w : ℚ} {hist : List ℚ} {now : ℚ}
    (h : (pruneQ w now hist).length < maxR) :
    rate_limit maxR w hist now =
      (RLOutcome.admitted, pruneQ w now hist ++ [now]) := by
  unfold rate_limit
  rw [if_neg (by omega)]

lemma runRequests_all_admitted (maxR : ℕ) (w : ℚ) :
    ∀ (ts hist : List ℚ), hist.length + ts.length ≤ maxR →
      ∀ o ∈ (runRequests maxR w hist ts).1, o = RLOutcome.admitted := by
  intro ts
  induction ts with
  | nil =>
    intro hist _ o ho
    simp [runRequests] at ho
  | cons t ts ih =>
    intro hist hlen o ho
    simp only [List.length_cons] at hlen
    have hpl : (pruneQ w t hist).length < maxR := by
      have := pruneQ_length_le w t hist
      omega
    unfold runRequests at ho
    rw [rate_limit_admits hpl] at ho
    dsimp only at ho
    rcases List.mem_cons.mp ho with h1 | h2
    · exact h1
    · refine ih (pruneQ w t hist ++ [t]) ?_ o h2
      have := pruneQ_length_le w t hist
      simp only [List.length_append, List.length_singleton]
      omega

lemma rate_limit_rejects {maxR : ℕ} {w : ℚ} {hist : List ℚ} {now : ℚ}
    (hmax : 0 < maxR) (hlen : maxR ≤ hist.length)
    (hwin : ∀ t ∈ hist, ¬ t < now - w) :
    ∃ r : ℤ, rate_limit maxR w hist now = (RLOutcome.rejected r, hist) ∧
      0 < r := by
  have hpr : pruneQ w now hist = hist := by
    unfold pruneQ
    cases hist with
    | nil => rfl
    | cons a l =>
      rw [List.dropWhile_cons, if_neg]
      simp only [decide_eq_true_eq]
      exact hwin a (List.mem_cons_self a l)
  cases hist with
  | nil =>
    rw [List.length_nil] at hlen
    omega
  | cons oldest rest =>
    refine ⟨pyInt (w - (now - oldest)) + 1, ?_, ?_⟩
    · unfold rate_limit
      rw [hpr, if_pos hlen]
    · have hold : ¬ oldest < now - w :=
        hwin oldest (List.mem_cons_self oldest rest)
      have hnn : 0 ≤ w - (now - oldest) := by
        rw [not_lt] at hold
        linarith
      have : pyInt (w - (now - oldest)) = ⌊w - (now - oldest)⌋ := by
        unfold pyInt
        rw [if_neg (not_lt.mpr hnn)]
      rw [this]
      have := Int.floor_nonneg.mpr hnn
      omega

lemma rate_limit_after_window {maxR : ℕ} {w : ℚ} {hist : List ℚ} {now : ℚ}
    (hmax : 0 < maxR) (hold : ∀ t ∈ hist, t < now - w) :
    rate_limit maxR w hist now = (RLOutcome.admitted, [now]) := by
  have hpr : pruneQ w now hist = [] := by
    unfold pruneQ
    rw [List.dropWhile_eq_nil_iff]
    intro x hx
    simpa using hold x hx
  unfold rate_limit
  rw [hpr, if_neg (by simp only [List.length_nil]; omega)]
  rfl

lemma pruneQ_sorted_filter (w now : ℚ) :
    ∀ (hist : List ℚ), hist.Sorted (· ≤ ·) →
      pruneQ w now hist = hist.filter (fun t => decide (now - w ≤ t)) := by
  intro hist
  induction hist with
  | nil => intro _; rfl
  | cons a l ih =>
    intro hs
    obtain ⟨hal, hs'⟩ := List.sorted_cons.mp hs
    unfold pruneQ at ih ⊢
    rw [List.dropWhile_cons, List.filter_cons]
    by_cases ha : a < now - w
    · rw [if_pos (by simpa using ha), if_neg (by simp [not_le.mpr ha])]
      exact ih hs'
    · rw [if_neg (by simpa using ha), if_pos (by simp [not_lt.mp ha])]
      congr 1
      rw [eq_comm, List.filter_eq_self]
      intro b hb
      simp only [decide_eq_true_eq]
      exact le_trans (not_lt.mp ha) (hal b hb)

/-- C3: with `max_requests = 10`, `window_seconds = 60`, for one client:
any sequence of at most 10 requests from an empty history is fully admitted;
with 10 timestamps still inside the window, the next request is rejected
with `retry_after > 0` and the history unchanged; once all timestamps have
fallen out of the window a request is admitted again; and the prune step
removes exactly the entries older than `now - 60` (for a time-ordered
deque). -/
theorem rate_limit_window_10_60 :
    (∀ (ts : List ℚ), ts.length ≤ 10 →
      ∀ o ∈ (runRequests 10 60 [] ts).1, o = RLOutcome.admitted) ∧
    (∀ (hist : List ℚ) (now : ℚ), hist.length = 10 →
      (∀ t ∈ hist, ¬ t < now - 60) →
      ∃ r : ℤ, rate_limit 10 60 hist now = (RLOutcome.rejected r, hist) ∧
        0 < r) ∧
    (∀ (hist : List ℚ) (now : ℚ), (∀ t ∈ hist, t < now - 60) →
      rate_limit 10 60 hist now = (RLOutcome.admitted, [now])) ∧
    (∀ (hist : List ℚ) (now : ℚ), hist.Sorted (· ≤ ·) →
      pruneQ 60 now hist = hist.filter (fun t => decide (now - 60 ≤ t))) := by
  refine ⟨?_, ?_, ?_, ?_⟩
  · intro ts hts
    exact runRequests_all_admitted 10 60 ts [] (by simpa using hts)
  · intro hist now hlen hwin
    exact rate_limit_rejects (by norm_num) (by omega) hwin
  · intro hist now hold
    exact rate_limit_after_window (by norm_num) hold
  · intro hist now hs
    exact pruneQ_sorted_filter 60 now hist hs

/-- Witness for C3 at concrete inputs. -/
theorem rate_limit_window_10_60_witness :
    (∀ o ∈ (runRequests 10 60 [] [0, 1]).1, o = RLOutcome.admitted) ∧
    (∃ r : ℤ, rate_limit 10 60 [0, 1, 2, 3, 4, 5, 6, 7, 8, 9] 10 =
      (RLOutcome.rejected r, [0, 1, 2, 3, 4, 5, 6, 7, 8, 9]) ∧ 0 < r) ∧
    (rate_limit 10 60 [0] 100 = (RLOutcome.admitted, [100])) ∧
    (pruneQ 60 61 [0, 1] =
      [0, 1].filter (fun t => decide ((61 : ℚ) - 60 ≤ t))) :=
  ⟨rate_limit_window_10_60.1 [0, 1] (by norm_num),
    rate_limit_window_10_60.2.1 [0, 1, 2, 3, 4, 5, 6, 7, 8, 9] 10 (by simp)
      (by intro t ht; fin_cases ht <;> norm_num),
    rate_limit_window_10_60.2.2.1 [0] 100
      (by intro t ht; fin_cases ht; norm_num),
    rate_limit_window_10_60.2.2.2 [0, 1] 61
      (by norm_num [List.sorted_cons])⟩

/-- Counterexample to C4 as stated: the code computes `retry_after` with
Python `int()` (truncation), not `ceil`.  With one request at time `0`,
`max_requests = 1`, `window = 60` and a rejected request at time `1/2`, the
code returns `retry_after = int(59.5) + 1 = 60`, while the claimed formula
gives `ceil(59.5) + 1 = 61`. -/
theorem rate_limit_retry_after_counterexample :
    rate_limit 1 60 [0] (1/2) = (RLOutcome.rejected 60, [0]) ∧
    ⌈(60 : ℚ) - (1/2 - 0)⌉ + 1 = 61 ∧ (60 : ℤ) ≠ 61 := by
  refine ⟨?_, ?_, by decide⟩
  · have hpr : pruneQ 60 (1/2) [0] = [0] := by
      unfold pruneQ
      rw [List.dropWhile_cons, if_neg (by norm_num)]
    unfold rate_limit
    rw [hpr, if_pos (by norm_num)]
    have hpy : pyInt (60 - (1/2 - 0)) = 59 := by
      unfold pyInt
      rw [if_neg (by norm_num)]
      norm_num [Int.floor_eq_iff]
    dsimp only
    rw [hpy]
    norm_num
  · have h : ⌈(60 : ℚ) - (1/2 - 0)⌉ = 60 := by
      rw [Int.ceil_eq_iff]
      norm_num
    omega

/-- C4 (amended): whenever a request is rejected, the returned `retry_after`
equals `int(window_seconds - (now - oldest)) + 1` — Python truncation, which
on this (provably nonnegative) quantity is the floor — where `oldest` is the
head of the pruned queue. -/
theorem rate_limit_retry_after_formula (maxR : ℕ) (w : ℚ) (hist : List ℚ)
    (now : ℚ) (r : ℤ) (h2 : List ℚ)
    (h : rate_limit maxR w hist now = (RLOutcome.rejected r, h2)) :
    ∃ oldest rest, pruneQ w now hist = oldest :: rest ∧
      now - w ≤ oldest ∧
      r = pyInt (w - (now - oldest)) + 1 ∧
      r = ⌊w - (now - oldest)⌋ + 1 := by
  unfold rate_limit at h
  by_cases hlen : maxR ≤ (pruneQ w now hist).length
  · rw [if_pos hlen] at h
    cases hp : pruneQ w now hist with
    | nil =>
      rw [hp] at h
      simp [Prod.ext_iff] at h
    | cons oldest rest =>
      rw [hp] at h
      simp only [Prod.mk.injEq] at h
      obtain ⟨h1, -⟩ := h
      injection h1 with h1'
      have hold : now - w ≤ oldest := by
        have hd := dropWhile_head_false
          (fun t => decide (t < now - w)) hist oldest rest hp
        simp only [decide_eq_false_iff_not, not_lt] at hd
        exact hd
      have hnn : 0 ≤ w - (now - oldest) := by linarith
      have hpy : pyInt (w - (now - oldest)) = ⌊w - (now - oldest)⌋ := by
        unfold pyInt
        rw [if_neg (not_lt.mpr hnn)]
      exact ⟨oldest, rest, rfl, hold, h1'.symm, by rw [← h1', hpy]⟩
  · rw [if_neg hlen] at h
    simp [Prod.ext_iff] at h

/-- Witness for C4 (amended): one request at time `0`, rejection at `30`. -/
theorem rate_limit_retry_after_formula_witness :
    ∃ oldest rest, pruneQ 60 30 [0] = oldest :: rest ∧
      (30 : ℚ) - 60 ≤ oldest ∧
      (31 : ℤ) = pyInt (60 - (30 - oldest)) + 1 ∧
      (31 : ℤ) = ⌊(60 : ℚ) - (30 - oldest)⌋ + 1 :=
  rate_limit_retry_after_formula 1 60 [0] 30 31 [0] (by
    have hpr : pruneQ 60 30 [0] = [0] := by
      unfold pruneQ
      rw [List.dropWhile_cons, if_neg (by norm_num)]
    unfold rate_limit
    rw [hpr, if_pos (by norm_num)]
    have hpy : pyInt (60 - (30 - 0)) = 30 := by
      unfold pyInt
      rw [if_neg (by norm_num)]
      norm_num [Int.floor_eq_iff]
    dsimp only
    rw [hpy]
    norm_num)

/-! ## `batch_processor.py` — class `BatchProcessor` -/

/-- `BatchProcessor.process_batch` (lines 31-78).  A work unit's processor
may raise (`Except.error`).  In the parallel branch (`parallel` and more
than one item) `asyncio.gather(..., return_exceptions=True)` collects one
outcome per task and exceptions are filtered out of the returned list; in
the sequential branch each exception is caught per item — both branches
yield the successful results in order.  The second component counts
`processor` invocations (scheduled tasks / loop iterations); the function
itself never raises, hence the always-`ok` result. -/
def process_batch {α β E : Type} (parallel : Bool) (items : List α)
    (processor : α → Except E β) : Except E (List β) × ℕ :=
  if items.isEmpty then (Except.ok [], 0)
  else if parallel ∧ 1 < items.length then
    (Except.ok ((items.map processor).filterMap Except.toOption),
      items.length)
  else
    (Except.ok ((items.map processor).filterMap Except.toOption),
      items.length)

lemma filterMap_toOption_length {β E : Type} :
    ∀ (rs : List (Except E β)),
      (rs.filterMap Except.toOption).length +
        rs.countP (fun r => r.toOption.isNone) = rs.length := by
  intro rs
  induction rs with
  | nil => rfl
  | cons r rs ih =>
    cases r with
    | ok b =>
      simp [List.filterMap_cons, List.countP_cons, Except.toOption] at ih ⊢
      omega
    | error e =>
      simp [List.filterMap_cons, List.countP_cons, Except.toOption] at ih ⊢
      omega

/-- C7: `process_batch` over `N` items of which exactly one raises returns
`N-1` successful results without raising; every successful unit's result is
in the output (no cancellation by the failing unit); the empty list yields
an empty result without invoking the processor at all. -/
theorem process_batch_failure_isolation (α β E : Type) :
    (∀ (items : List α) (processor : α → Except E β),
      (items.map processor).countP (fun r => r.toOption.isNone) = 1 →
      ∃ l, process_batch true items processor = (Except.ok l, items.length) ∧
        l.length + 1 = items.length ∧
        ∀ a ∈ items, ∀ b, processor a = Except.ok b → b ∈ l) ∧
    (∀ (processor : α → Except E β),
      process_batch true [] processor = (Except.ok [], 0)) := by
  constructor
  · intro items processor hone
    have hne : items ≠ [] := by
      intro he
      rw [he] at hone
      simp at hone
    refine ⟨(items.map processor).filterMap Except.toOption, ?_, ?_, ?_⟩
    · unfold process_batch
      rw [if_neg (by simpa using hne)]
      by_cases hpar : (true = true) ∧ 1 < items.length
      · rw [if_pos hpar]
      · rw [if_neg hpar]
    · have := filterMap_toOption_length (items.map processor)
      rw [hone] at this
      simpa using this
    · intro a ha b hb
      rw [List.mem_filterMap]
      exact ⟨processor a, List.mem_map_of_mem _ ha, by rw [hb]; rfl⟩
  · intro processor
    rfl

/-- Witness for C7: three items of which the middle one raises. -/
theorem process_batch_failure_isolation_witness :
    (∃ l, process_batch true [1, 2, 3]
        (fun n => if n = 2 then Except.error "boom" else Except.ok n) =
        (Except.ok l, 3) ∧
      l.length + 1 = 3 ∧
      ∀ a ∈ [1, 2, 3], ∀ b : ℕ,
        (if a = 2 then Except.error "boom" else Except.ok a) = Except.ok b →
        b ∈ l) ∧
    process_batch true ([] : List ℕ)
      (fun n => if n = 2 then Except.error "boom" else Except.ok n) =
      (Except.ok [], 0) :=
  ⟨(process_batch_failure_isolation ℕ ℕ String).1 [1, 2, 3]
      (fun n => if n = 2 then Except.error "boom" else Except.ok n)
      (by decide),
    (process_batch_failure_isolation ℕ ℕ String).2
      (fun n => if n = 2 then Except.error "boom" else Except.ok n)⟩

/-! ## `batch_processor.py` — class `DebouncedProcessor`

The mutable state is `pending_tasks : key ↦ asyncio.Task` (tasks are
identified by a counter that yields a fresh id per `create_task`) and
`results_cache : key ↦ result`.  `process` runs atomically up to its first
`await` on the event loop; its synchronous prefix is modelled as one step
that reports which tasks were cancelled and what the caller then awaits. -/

def alistGet {γ : Type} (l : List (String × γ)) (k : String) : Option γ :=
  match l.find? (fun e => e.1 == k) with
  | none => none
  | some e => some e.2

/-- Python dict assignment: overwrite in place, else append. -/
def alistSet {γ : Type} (l : List (String × γ)) (k : String) (v : γ) :
    List (String × γ) :=
  if l.any (fun e => e.1 == k) then
    l.map (fun e => if e.1 == k then (k, v) else e)
  else l ++ [(k, v)]

/-- Python `del d[key]` (dict keys are unique, so removing every entry with
the key equals removing the one entry). -/
def alistErase {γ : Type} (l : List (String × γ)) (k : String) :
    List (String × γ) :=
  l.filter (fun e => !(e.1 == k))

structure DebouncedProcessor (V : Type) where
  pending_tasks : List (String × ℕ)
  results_cache : List (String × V)
  next_task_id : ℕ

/-- What the calling coroutine does after the synchronous prefix of
`DebouncedProcessor.process` (lines 154-179). -/
inductive DebounceAction (V E : Type) where
  | returnCached : V → DebounceAction V E
  | forceResult : Except E V → DebounceAction V E
  | awaitTask : ℕ → DebounceAction V E

/-- `DebouncedProcessor.process` (batch_processor.py lines 137-179), up to
the caller's first suspension: returns the list of task ids it cancelled
(line 160), the action the caller takes, and the new state.  `forceOutcome`
is the outcome of `await asyncio.to_thread(processor)` on the force path
(lines 162-166; on failure nothing is cached). -/
def DebouncedProcessor.process {V E : Type} (dp : DebouncedProcessor V)
    (key : String) (force : Bool) (forceOutcome : Except E V) :
    List ℕ × DebounceAction V E × DebouncedProcessor V :=
  match alistGet dp.results_cache key, force with
  | some v, false => ([], DebounceAction.returnCached v, dp)
  | _, _ =>
    let cancelled : List ℕ :=
      match alistGet dp.pending_tasks key with
      | some tid => [tid]
      | none => []
    if force then
      match forceOutcome with
      | Except.ok v =>
        (cancelled, DebounceAction.forceResult (Except.ok v),
          { dp with results_cache := alistSet dp.results_cache key v })
      | Except.error e =>
        (cancelled, DebounceAction.forceResult (Except.error e), dp)
    else
      (cancelled, DebounceAction.awaitTask dp.next_task_id,
        { dp with
            pending_tasks := alistSet dp.pending_tasks key dp.next_task_id,
            next_task_id := dp.next_task_id + 1 })

/-- The body of `debounced_task` (batch_processor.py lines 169-174), given
the outcome of `await asyncio.to_thread(processor)`: on success the result
is cached (line 172) and then the pending entry deleted (line 173; `del` on
a missing key raises `KeyError`, modelled by `none`); on failure the
exception propagates to the awaiting caller with no state change — lines
172-173 are not reached and there is no `try/finally`. -/
def debounced_task_run {V E : Type} (dp : DebouncedProcessor V) (key : String)
    (outcome : Except E V) : Option (DebouncedProcessor V × Except E V) :=
  match outcome with
  | Except.error e => some (dp, Except.error e)
  | Except.ok v =>
    if dp.pending_tasks.any (fun e => e.1 == key) then
      some ({ dp with
          results_cache := alistSet dp.results_cache key v,
          pending_tasks := alistErase dp.pending_tasks key },
        Except.ok v)
    else none

lemma alistGet_alistSet_self {γ : Type} (l : List (String × γ)) (k : String)
    (v : γ) : alistGet (alistSet l k v) k = some v := by
  unfold alistSet
  by_cases h : l.any (fun e => e.1 == k)
  · rw [if_pos h]
    induction l with
    | nil => cases h
    | cons a l ih =>
      rw [List.any_cons] at h
      by_cases ha : a.1 = k
      · simp [alistGet, List.find?, ha]
      · have hb : (a.1 == k) = false := by simp [ha]
        rw [List.map_cons, if_neg (by simp [ha])]
        have hl : l.any (fun e => e.1 == k) = true := by
          rcases Bool.or_eq_true_iff.mp h with h1 | h2
          · exact absurd (by simpa using h1) ha
          · exact h2
        unfold alistGet at ih ⊢
        rw [List.find?_cons, ]
        simp only [hb, cond_false]
        exact ih hl
  · rw [if_neg h]
    induction l with
    | nil => simp [alistGet, List.find?]
    | cons a l ih =>
      rw [List.any_cons] at h
      have ha : (a.1 == k) = false := by
        cases hb : (a.1 == k)
        · rfl
        · exact absurd (by rw [hb]; simp) h
      have hl : ¬ l.any (fun e => e.1 == k) = true := by
        intro hc
        exact h (by rw [hc]; simp)
      unfold alistGet at ih ⊢
      rw [List.cons_append, List.find?_cons]
      simp only [ha, cond_false]
      exact ih hl

lemma alistGet_alistErase {γ : Type} (l : List (String × γ)) (k : String) :
    alistGet (alistErase l k) k = none := by
  unfold alistGet alistErase
  cases hf : (l.filter (fun e => !(e.1 == k))).find? (fun e => e.1 == k) with
  | none => rfl
  | some e =>
    have h1 := List.find?_some hf
    have h2 := List.mem_of_find?_eq_some hf
    rw [List.mem_filter] at h2
    rw [h1] at h2
    simp at h2

lemma alistGet_isSome_any {γ : Type} (l : List (String × γ)) (k : String)
    (h : (alistGet l k).isSome) : l.any (fun e => e.1 == k) = true := by
  unfold alistGet at h
  cases hf : l.find? (fun e => e.1 == k) with
  | none => rw [hf] at h; cases h
  | some e =>
    rw [List.any_eq_true]
    have hp := List.find?_some hf
    exact ⟨e, List.mem_of_find?_eq_some hf, hp⟩

/-- Counterexample to C5 as stated: state with a pending task `0` for key
`"k"` (and `next_task_id = 1`), no cached result.  A new non-force call
cancels task `0` and schedules a fresh task `1`, which it awaits — it does
not observe and await the pending task. -/
theorem debounce_same_task_counterexample :
    DebouncedProcessor.process (V := ℕ) (E := String)
        ⟨[("k", 0)], [], 1⟩ "k" false (Except.ok 0) =
      ([0], DebounceAction.awaitTask 1, ⟨[("k", 1)], [], 2⟩) ∧
    (([0] : List ℕ) ≠ []) ∧ ((1 : ℕ) ≠ 0) :=
  ⟨rfl, by decide, by decide⟩

/-- C5 (amended): a non-force call for a key with no cached result and a
pending scheduled task cancels exactly that pending task and schedules a
fresh, distinct task which the caller awaits; the pending map now holds the
new task id. -/
theorem debounce_reschedules (V E : Type) (dp : DebouncedProcessor V)
    (key : String) (tid : ℕ) (fo : Except E V)
    (hcache : alistGet dp.results_cache key = none)
    (hpend : alistGet dp.pending_tasks key = some tid)
    (hfresh : tid < dp.next_task_id) :
    dp.process key false fo =
      ([tid], DebounceAction.awaitTask dp.next_task_id,
        { dp with
            pending_tasks := alistSet dp.pending_tasks key dp.next_task_id,
            next_task_id := dp.next_task_id + 1 }) ∧
    dp.next_task_id ≠ tid ∧
    alistGet (alistSet dp.pending_tasks key dp.next_task_id) key =
      some dp.next_task_id := by
  refine ⟨?_, by omega, alistGet_alistSet_self _ _ _⟩
  unfold DebouncedProcessor.process
  rw [hcache, hpend]
  rfl

/-- Counterexample to C6 as stated: when the computation raises, the task
body exits before `del self.pending_tasks[key]`, so the in-flight marker is
NOT removed (the claim says it is). -/
theorem debounce_failure_marker_counterexample :
    debounced_task_run (V := ℕ) ⟨[("k", 0)], [], 1⟩ "k"
        (Except.error "boom") =
      some (⟨[("k", 0)], [], 1⟩, Except.error "boom") ∧
    alistGet (⟨[("k", 0)], [], 1⟩ : DebouncedProcessor ℕ).pending_tasks "k" =
      some 0 ∧
    alistGet (⟨[("k", 0)], [], 1⟩ : DebouncedProcessor ℕ).pending_tasks "k" ≠
      none :=
  ⟨rfl, rfl, by decide⟩

/-- C6 (amended): on successful completion the result is cached under the
key and the in-flight marker removed; on failure the error is surfaced to
the awaiting caller and nothing is cached, but the in-flight marker is NOT
removed (the state is unchanged). -/
theorem debounced_task_completion (V E : Type) :
    (∀ (dp : DebouncedProcessor V) (key : String) (v : V),
      (alistGet dp.pending_tasks key).isSome →
      ∃ dp2, debounced_task_run dp key (Except.ok (ε := E) v) =
          some (dp2, Except.ok v) ∧
        alistGet dp2.results_cache key = some v ∧
        alistGet dp2.pending_tasks key = none) ∧
    (∀ (dp : DebouncedProcessor V) (key : String) (e : E),
      debounced_task_run dp key (Except.error e) =
        some (dp, Except.error e)) := by
  constructor
  · intro dp key v hpend
    refine ⟨{ dp with
        results_cache := alistSet dp.results_cache key v,
        pending_tasks := alistErase dp.pending_tasks key }, ?_,
      alistGet_alistSet_self _ _ _, alistGet_alistErase _ _⟩
    simp only [debounced_task_run]
    rw [if_pos (alistGet_isSome_any _ _ hpend)]
  · intro dp key e
    rfl

/-- Witness for C6 (amended) at a concrete state. -/
theorem debounced_task_completion_witness :
    (∃ dp2, debounced_task_run (V := ℕ) ⟨[("k", 0)], [], 1⟩ "k"
        (Except.ok (ε := String) 7) = some (dp2, Except.ok 7) ∧
      alistGet dp2.results_cache "k" = some 7 ∧
      alistGet dp2.pending_tasks "k" = none) ∧
    debounced_task_run (V := ℕ) ⟨[("k", 0)], [], 1⟩ "k"
        (Except.error "boom") =
      some (⟨[("k", 0)], [], 1⟩, Except.error "boom") :=
  ⟨(debounced_task_completion ℕ String).1 ⟨[("k", 0)], [], 1⟩ "k" 7
      (by decide),
    (debounced_task_completion ℕ String).2 ⟨[("k", 0)], [], 1⟩ "k" "boom"⟩

/-- Witness for C5 (amended) at a concrete state. -/
theorem debounce_reschedules_witness :
    (DebouncedProcessor.process (V := ℕ) (E := String)
        ⟨[("k", 0)], [], 1⟩ "k" false (Except.ok 99) =
      ([0], DebounceAction.awaitTask 1, ⟨[("k", 1)], [], 2⟩) ∧
      (1 : ℕ) ≠ 0 ∧
      alistGet (alistSet [("k", 0)] "k" 1) "k" = some 1) :=
  debounce_reschedules ℕ String ⟨[("k", 0)], [], 1⟩ "k" 0 (Except.ok 99)
    rfl rfl (by decide)

/-! ## `batch_processor.py` — `ParallelFixProcessor._merge_resume_changes`

Python JSON-like values: scalars (numbers and strings suffice for the
claims), lists and dicts.  Dicts are insertion-ordered association lists;
Python guarantees unique keys, expressed by the well-formedness predicate
`wfPyDict`.  Python structural equality `==` is `pyBeq`. -/

inductive PyVal where
  | int : ℤ → PyVal
  | str : String → PyVal
  | list : List PyVal → PyVal
  | dict : List (String × PyVal) → PyVal

mutual

def pyBeq : PyVal → PyVal → Bool
  | PyVal.int a, PyVal.int b => a == b
  | PyVal.str a, PyVal.str b => a == b
  | PyVal.list a, PyVal.list b => pyBeqList a b
  | PyVal.dict a, PyVal.dict b => pyBeqDict a b
  | _, _ => false

def pyBeqList : List PyVal → List PyVal → Bool
  | [], [] => true
  | a :: as, b :: bs => pyBeq a b && pyBeqList as bs
  | _, _ => false

def pyBeqDict : List (String × PyVal) → List (String × PyVal) → Bool
  | [], [] => true
  | a :: as, b :: bs => (a.1 == b.1) && pyBeq a.2 b.2 && pyBeqDict as bs
  | _, _ => false

end

lemma pyBeq_iff_aux : ∀ n : ℕ,
    (∀ a b : PyVal, sizeOf a ≤ n → (pyBeq a b = true ↔ a = b)) ∧
    (∀ as bs : List PyVal, sizeOf as ≤ n → (pyBeqList as bs = true ↔ as = bs)) ∧
    (∀ ds es : List (String × PyVal), sizeOf ds ≤ n →
      (pyBeqDict ds es = true ↔ ds = es)) := by
  intro n
  induction n using Nat.strong_induction_on with
  | _ n ih =>
  refine ⟨?_, ?_, ?_⟩
  · intro a b hsz
    cases a with
    | int m => cases b <;> simp [pyBeq]
    | str s => cases b <;> simp [pyBeq]
    | list l =>
      cases b with
      | list l2 =>
        have hs : sizeOf (PyVal.list l) = 1 + sizeOf l := by simp
        have hl : sizeOf l ≤ n - 1 := by omega
        have := (ih (n - 1) (by omega)).2.1 l l2 hl
        simp [pyBeq, this]
      | int m => simp [pyBeq]
      | str s => simp [pyBeq]
      | dict d => simp [pyBeq]
    | dict d =>
      cases b with
      | dict d2 =>
        have hs : sizeOf (PyVal.dict d) = 1 + sizeOf d := by simp
        have hl : sizeOf d ≤ n - 1 := by omega
        have := (ih (n - 1) (by omega)).2.2 d d2 hl
        simp [pyBeq, this]
      | int m => simp [pyBeq]
      | str s => simp [pyBeq]
      | list l => simp [pyBeq]
  · intro as bs hsz
    cases as with
    | nil => cases bs <;> simp [pyBeqList]
    | cons a as =>
      cases bs with
      | nil => simp [pyBeqList]
      | cons b bs =>
        have hs : sizeOf (a :: as) = 1 + sizeOf a + sizeOf as := by simp
        have ha : sizeOf a ≤ n - 1 := by omega
        have has : sizeOf as ≤ n - 1 := by omega
        have h1 := (ih (n - 1) (by omega)).1 a b ha
        have h2 := (ih (n - 1) (by omega)).2.1 as bs has
        simp [pyBeqList, Bool.and_eq_true, h1, h2]
  · intro ds es hsz
    cases ds with
    | nil => cases es <;> simp [pyBeqDict]
    | cons d ds =>
      cases es with
      | nil => simp [pyBeqDict]
      | cons e es =>
        obtain ⟨dk, dv⟩ := d
        have hs : sizeOf ((dk, dv) :: ds) =
            1 + (1 + sizeOf dk + sizeOf dv) + sizeOf ds := by simp
        have hd : sizeOf dv ≤ n - 1 := by omega
        have hds : sizeOf ds ≤ n - 1 := by omega
        have h1 := (ih (n - 1) (by omega)).1 dv e.2 hd
        have h2 := (ih (n - 1) (by omega)).2.2 ds es hds
        simp [pyBeqDict, Bool.and_eq_true, h1, h2, Prod.ext_iff]

lemma pyBeq_iff (a b : PyVal) : pyBeq a b = true ↔ a = b :=
  (pyBeq_iff_aux (sizeOf a)).1 a b le_rfl

lemma pyBeqList_iff (as bs : List PyVal) : pyBeqList as bs = true ↔ as = bs :=
  (pyBeq_iff_aux (sizeOf as)).2.1 as bs le_rfl

instance : DecidableEq PyVal := fun a b => decidable_of_iff _ (pyBeq_iff a b)

mutual

/-- Well-formedness of a Python value: every dict (at any depth) has unique
keys — guaranteed by Python's dict type. -/
def wfPy : PyVal → Bool
  | PyVal.int _ => true
  | PyVal.str _ => true
  | PyVal.list l => wfPyList l
  | PyVal.dict d => wfPyDict d

def wfPyList : List PyVal → Bool
  | [] => true
  | v :: l => wfPy v && wfPyList l

def wfPyDict : List (String × PyVal) → Bool
  | [] => true
  | p :: d => !(d.any (fun q => q.1 == p.1)) && wfPy p.2 && wfPyDict d

end

mutual

/-- `ParallelFixProcessor._merge_resume_changes` (batch_processor.py lines
291-322): `merged = base.copy()`, then fold the updated dict's entries into
it one key at a time (`mergeOne`). -/
def mergeDict : List (String × PyVal) → List (String × PyVal) →
    List (String × PyVal)
  | base, [] => base
  | base, (k, v) :: rest => mergeDict (mergeOne base k v) rest
termination_by _ upd => (sizeOf upd, 0)

/-- One iteration of the merge loop (lines 309-320): absent key — insert;
both dicts — recursive merge; both lists — replace if different (`!=`),
else keep; anything else — the updated value wins. -/
def mergeOne (base : List (String × PyVal)) (k : String) (v : PyVal) :
    List (String × PyVal) :=
  if base.any (fun e => e.1 == k) then
    match alistGet base k, v with
    | some (PyVal.dict b), PyVal.dict u =>
      alistSet base k (PyVal.dict (mergeDict b u))
    | some (PyVal.list b), PyVal.list u =>
      if pyBeqList u b then base else alistSet base k (PyVal.list u)
    | _, _ => alistSet base k v
  else base ++ [(k, v)]
termination_by (sizeOf v, 1)

end

lemma mergeDict_nil (base : List (String × PyVal)) : mergeDict base [] = base := by
  simp [mergeDict]

lemma mergeDict_cons (base : List (String × PyVal)) (k : String) (v : PyVal)
    (rest : List (String × PyVal)) :
    mergeDict base ((k, v) :: rest) = mergeDict (mergeOne base k v) rest := by
  simp [mergeDict]

lemma mergeDict_single (base : List (String × PyVal)) (k : String) (v : PyVal) :
    mergeDict base [(k, v)] = mergeOne base k v := by
  rw [mergeDict_cons, mergeDict_nil]

/-- The scalar shapes of `PyVal` (neither dict nor list). -/
def isScalar : PyVal → Bool
  | PyVal.int _ => true
  | PyVal.str _ => true
  | PyVal.list _ => false
  | PyVal.dict _ => false

lemma alistGet_cons_eq {γ : Type} (a : String × γ) (t : List (String × γ))
    (k : String) (h : a.1 = k) : alistGet (a :: t) k = some a.2 := by
  unfold alistGet
  rw [List.find?_cons_of_pos _ (by simp [h])]

lemma alistGet_cons_ne {γ : Type} (a : String × γ) (t : List (String × γ))
    (k : String) (h : ¬ a.1 = k) : alistGet (a :: t) k = alistGet t k := by
  unfold alistGet
  rw [List.find?_cons_of_neg _ (by simp [h])]

lemma mergeOne_absent (base : List (String × PyVal)) (k : String) (v : PyVal)
    (h : base.any (fun e => e.1 == k) = false) :
    mergeOne base k v = base ++ [(k, v)] := by
  rw [mergeOne.eq_def]
  rw [if_neg (by simp [h])]

lemma mergeOne_dict (base : List (String × PyVal)) (k : String)
    (b u : List (String × PyVal))
    (hget : alistGet base k = some (PyVal.dict b)) :
    mergeOne base k (PyVal.dict u) =
      alistSet base k (PyVal.dict (mergeDict b u)) := by
  have hany := alistGet_isSome_any base k (by rw [hget]; rfl)
  rw [mergeOne.eq_def]
  rw [if_pos hany, hget]

lemma mergeOne_list (base : List (String × PyVal)) (k : String)
    (b u : List PyVal) (hget : alistGet base k = some (PyVal.list b)) :
    mergeOne base k (PyVal.list u) =
      if u = b then base else alistSet base k (PyVal.list u) := by
  have hany := alistGet_isSome_any base k (by rw [hget]; rfl)
  rw [mergeOne.eq_def]
  rw [if_pos hany, hget]
  show (if pyBeqList u b = true then base else alistSet base k (PyVal.list u)) =
    if u = b then base else alistSet base k (PyVal.list u)
  by_cases he : u = b
  · rw [if_pos ((pyBeqList_iff u b).mpr he), if_pos he]
  · rw [if_neg (fun hc => he ((pyBeqList_iff u b).mp hc)), if_neg he]

lemma mergeOne_scalar (base : List (String × PyVal)) (k : String)
    (old v : PyVal) (hget : alistGet base k = some old)
    (hs : isScalar v = true) :
    mergeOne base k v = alistSet base k v := by
  have hany := alistGet_isSome_any base k (by rw [hget]; rfl)
  rw [mergeOne.eq_def]
  rw [if_pos hany, hget]
  cases v with
  | int n => cases old <;> rfl
  | str s => cases old <;> rfl
  | list l => simp [isScalar] at hs
  | dict d => simp [isScalar] at hs

lemma map_set_find_ne {γ : Type} (k k' : String) (v : γ) (h : k' ≠ k) :
    ∀ (l : List (String × γ)),
      alistGet (l.map (fun e => if e.1 == k then (k, v) else e)) k' =
        alistGet l k' := by
  intro l
  induction l with
  | nil => rfl
  | cons a t ih =>
    rw [List.map_cons]
    by_cases hak : a.1 = k
    · rw [if_pos (by simp [hak])]
      rw [alistGet_cons_ne (k, v) _ k' (fun hc => h hc.symm)]
      rw [alistGet_cons_ne a t k' (by rw [hak]; exact fun hc => h hc.symm)]
      exact ih
    · rw [if_neg (by simp [hak])]
      by_cases hak' : a.1 = k'
      · rw [alistGet_cons_eq a _ k' hak', alistGet_cons_eq a t k' hak']
      · rw [alistGet_cons_ne a _ k' hak', alistGet_cons_ne a t k' hak']
        exact ih

lemma alistGet_append_single_ne {γ : Type} (k k' : String) (v : γ)
    (h : k' ≠ k) : ∀ (l : List (String × γ)),
      alistGet (l ++ [(k, v)]) k' = alistGet l k' := by
  intro l
  induction l with
  | nil =>
    rw [List.nil_append, alistGet_cons_ne (k, v) _ k' (fun hc => h hc.symm)]
  | cons a t ih =>
    rw [List.cons_append]
    by_cases hak' : a.1 = k'
    · rw [alistGet_cons_eq a _ k' hak', alistGet_cons_eq a t k' hak']
    · rw [alistGet_cons_ne a _ k' hak', alistGet_cons_ne a t k' hak']
      exact ih

lemma alistGet_alistSet_ne {γ : Type} (l : List (String × γ)) (k k' : String)
    (v : γ) (h : k' ≠ k) : alistGet (alistSet l k v) k' = alistGet l k' := by
  unfold alistSet
  by_cases ha : l.any (fun e => e.1 == k)
  · rw [if_pos ha]
    exact map_set_find_ne k k' v h l
  · rw [if_neg ha]
    exact alistGet_append_single_ne k k' v h l

lemma mergeOne_get_ne (base : List (String × PyVal)) (k k' : String)
    (v : PyVal) (h : k' ≠ k) :
    alistGet (mergeOne base k v) k' = alistGet base k' := by
  rw [mergeOne.eq_def]
  by_cases hany : base.any (fun e => e.1 == k)
  · rw [if_pos hany]
    split
    · exact alistGet_alistSet_ne _ _ _ _ h
    · split
      · rfl
      · exact alistGet_alistSet_ne _ _ _ _ h
    · exact alistGet_alistSet_ne _ _ _ _ h
  · rw [if_neg hany]
    exact alistGet_append_single_ne k k' v h base

lemma mergeDict_get_ne :
    ∀ (upd base : List (String × PyVal)) (k2 : String),
      (∀ p ∈ upd, p.1 ≠ k2) →
      alistGet (mergeDict base upd) k2 = alistGet base k2 := by
  intro upd
  induction upd with
  | nil =>
    intro base k2 _
    rw [mergeDict_nil]
  | cons p rest ih =>
    intro base k2 h
    obtain ⟨k, v⟩ := p
    rw [mergeDict_cons,
      ih (mergeOne base k v) k2 (fun q hq => h q (List.mem_cons_of_mem _ hq)),
      mergeOne_get_ne base k k2 v]
    intro hc
    exact h (k, v) (List.mem_cons_self _ _) hc.symm

lemma map_set_id {γ : Type} :
    ∀ (l : List (String × γ)) (k : String) (v : γ),
      alistGet l k = some v → (l.map Prod.fst).Nodup →
      l.map (fun e => if e.1 == k then (k, v) else e) = l := by
  intro l
  induction l with
  | nil =>
    intro k v _ _
    rfl
  | cons a t ih =>
    intro k v hget hnd
    simp only [List.map_cons] at hnd
    rw [List.map_cons]
    by_cases hak : a.1 = k
    · have hv : a.2 = v := by
        rw [alistGet_cons_eq a t k hak] at hget
        exact Option.some_inj.mp hget
      rw [if_pos (by simp [hak])]
      have hnk : ∀ e ∈ t, (fun e => if e.1 == k then (k, v) else e) e =
          id e := by
        intro e he
        simp only [id]
        rw [if_neg]
        simp only [beq_iff_eq]
        intro hek
        have : a.1 ∈ t.map Prod.fst := by
          rw [hak, ← hek]
          exact List.mem_map_of_mem _ he
        exact (List.nodup_cons.mp hnd).1 this
      rw [List.map_congr_left hnk, List.map_id]
      obtain ⟨a1, a2⟩ := a
      simp only at hak hv
      rw [hak, hv]
    · rw [if_neg (by simp [hak])]
      have hget' : alistGet t k = some v := by
        rw [alistGet_cons_ne a t k hak] at hget
        exact hget
      rw [ih k v hget' (List.nodup_cons.mp hnd).2]

lemma alistSet_self {γ : Type} (l : List (String × γ)) (k : String) (v : γ)
    (hget : alistGet l k = some v) (hnd : (l.map Prod.fst).Nodup) :
    alistSet l k v = l := by
  have hany := alistGet_isSome_any l k (by rw [hget]; rfl)
  unfold alistSet
  rw [if_pos hany]
  exact map_set_id l k v hget hnd

lemma alistGet_of_mem_nodup {γ : Type} :
    ∀ (l : List (String × γ)) (p : String × γ),
      p ∈ l → (l.map Prod.fst).Nodup → alistGet l p.1 = some p.2 := by
  intro l
  induction l with
  | nil =>
    intro p hp
    cases hp
  | cons a t ih =>
    intro p hp hnd
    simp only [List.map_cons] at hnd
    rcases List.mem_cons.mp hp with h1 | h2
    · subst h1
      exact alistGet_cons_eq p t p.1 rfl
    · have hne : ¬ a.1 = p.1 := by
        intro he
        have : a.1 ∈ t.map Prod.fst := by
          rw [he]
          exact List.mem_map_of_mem _ h2
        exact (List.nodup_cons.mp hnd).1 this
      rw [alistGet_cons_ne a t p.1 hne]
      exact ih p h2 (List.nodup_cons.mp hnd).2

lemma wfPyDict_nodup :
    ∀ d, wfPyDict d = true → (d.map Prod.fst).Nodup := by
  intro d
  induction d with
  | nil =>
    intro _
    simp
  | cons p t ih =>
    intro h
    simp only [wfPyDict, Bool.and_eq_true, Bool.not_eq_true'] at h
    obtain ⟨⟨h1, -⟩, h3⟩ := h
    rw [List.map_cons, List.nodup_cons]
    refine ⟨?_, ih h3⟩
    intro hmem
    obtain ⟨e, he, hek⟩ := List.mem_map.mp hmem
    have : t.any (fun q => q.1 == p.1) = true :=
      List.any_eq_true.mpr ⟨e, he, by simp [hek]⟩
    rw [this] at h1
    cases h1

lemma wfPyDict_values :
    ∀ d, wfPyDict d = true → ∀ p ∈ d, wfPy p.2 = true := by
  intro d
  induction d with
  | nil =>
    intro _ p hp
    cases hp
  | cons q t ih =>
    intro h p hp
    simp only [wfPyDict, Bool.and_eq_true] at h
    obtain ⟨⟨-, h2⟩, h3⟩ := h
    rcases List.mem_cons.mp hp with h1 | h4
    · subst h1
      exact h2
    · exact ih h3 p h4

lemma mergeDict_self_aux : ∀ n : ℕ, ∀ (upd base : List (String × PyVal)),
    sizeOf upd ≤ n → (base.map Prod.fst).Nodup →
    (∀ p ∈ upd, alistGet base p.1 = some p.2 ∧ wfPy p.2 = true) →
    mergeDict base upd = base := by
  intro n
  induction n using Nat.strong_induction_on with
  | _ n ih =>
  intro upd base hsz hnd hconds
  cases upd with
  | nil => exact mergeDict_nil base
  | cons p rest =>
    obtain ⟨k, v⟩ := p
    have hszc : sizeOf ((k, v) :: rest) =
        1 + (1 + sizeOf k + sizeOf v) + sizeOf rest := by simp
    obtain ⟨hget, hwf⟩ := hconds (k, v) (List.mem_cons_self _ _)
    simp only at hget hwf
    have hone : mergeOne base k v = base := by
      cases v with
      | int m =>
        rw [mergeOne_scalar base k (PyVal.int m) (PyVal.int m) hget rfl]
        exact alistSet_self base k _ hget hnd
      | str s =>
        rw [mergeOne_scalar base k (PyVal.str s) (PyVal.str s) hget rfl]
        exact alistSet_self base k _ hget hnd
      | list l =>
        rw [mergeOne_list base k l l hget, if_pos rfl]
      | dict u =>
        have hwfu : wfPyDict u = true := by simpa [wfPy] using hwf
        have hndu : (u.map Prod.fst).Nodup := wfPyDict_nodup u hwfu
        have hvd : sizeOf (PyVal.dict u) = 1 + sizeOf u := by simp
        have hmu : mergeDict u u = u := by
          refine ih (n - 1) (by omega) u u (by omega) hndu ?_
          intro q hq
          exact ⟨alistGet_of_mem_nodup u q hq hndu,
            wfPyDict_values u hwfu q hq⟩
        rw [mergeOne_dict base k u u hget, hmu]
        exact alistSet_self base k _ hget hnd
    rw [mergeDict_cons, hone]
    exact ih (n - 1) (by omega) rest base (by omega) hnd
      (fun q hq => hconds q (List.mem_cons_of_mem _ hq))

lemma mergeDict_self (d : List (String × PyVal)) (h : wfPyDict d = true) :
    mergeDict d d = d := by
  have hnd := wfPyDict_nodup d h
  refine mergeDict_self_aux (sizeOf d) d d le_rfl hnd ?_
  intro p hp
  exact ⟨alistGet_of_mem_nodup d p hp hnd, wfPyDict_values d h p hp⟩

/-- C8: the deep-merge policy of `_merge_resume_changes`: merging a
(well-formed) document with itself yields the same document; an incoming
scalar under an existing key wins; an incoming list replaces a base list
wholesale when different and leaves the base unchanged when equal; two
dicts under the same key merge recursively; keys absent from the incoming
dict are never touched; plus the two concrete examples from the spec. -/
theorem merge_resume_changes_policy :
    (∀ d : List (String × PyVal), wfPyDict d = true → mergeDict d d = d) ∧
    (∀ (base : List (String × PyVal)) (k : String) (old v : PyVal),
      alistGet base k = some old → isScalar v = true →
      mergeDict base [(k, v)] = alistSet base k v ∧
      alistGet (mergeDict base [(k, v)]) k = some v) ∧
    (∀ (base : List (String × PyVal)) (k : String) (b u : List PyVal),
      alistGet base k = some (PyVal.list b) →
      (u ≠ b → mergeDict base [(k, PyVal.list u)] =
        alistSet base k (PyVal.list u)) ∧
      (u = b → mergeDict base [(k, PyVal.list u)] = base)) ∧
    (∀ (base : List (String × PyVal)) (k : String)
      (b u : List (String × PyVal)),
      alistGet base k = some (PyVal.dict b) →
      mergeDict base [(k, PyVal.dict u)] =
        alistSet base k (PyVal.dict (mergeDict b u))) ∧
    (∀ (base upd : List (String × PyVal)) (k2 : String),
      (∀ p ∈ upd, p.1 ≠ k2) →
      alistGet (mergeDict base upd) k2 = alistGet base k2) ∧
    (mergeDict [("a", PyVal.dict [("b", PyVal.int 1)])]
        [("a", PyVal.dict [("c", PyVal.int 2)])] =
      [("a", PyVal.dict [("b", PyVal.int 1), ("c", PyVal.int 2)])]) ∧
    (mergeDict [("skills", PyVal.list [PyVal.str "x"])]
        [("skills", PyVal.list [PyVal.str "x", PyVal.str "y"])] =
      [("skills", PyVal.list [PyVal.str "x", PyVal.str "y"])]) := by
  refine ⟨mergeDict_self, ?_, ?_, ?_, ?_, ?_, ?_⟩
  · intro base k old v hget hs
    rw [mergeDict_single, mergeOne_scalar base k old v hget hs]
    exact ⟨rfl, alistGet_alistSet_self base k v⟩
  · intro base k b u hget
    constructor
    · intro hne
      rw [mergeDict_single, mergeOne_list base k b u hget, if_neg hne]
    · intro heq
      rw [mergeDict_single, mergeOne_list base k b u hget, if_pos heq]
  · intro base k b u hget
    rw [mergeDict_single, mergeOne_dict base k b u hget]
  · exact fun base upd k2 h => mergeDict_get_ne upd base k2 h
  · simp [mergeDict, mergeOne, alistGet, alistSet]
  · simp [mergeDict, mergeOne, alistGet, alistSet, pyBeqList, pyBeq]

/-- Witness for C8 at concrete documents. -/
theorem merge_resume_changes_policy_witness :
    (mergeDict [("a", PyVal.int 1)] [("a", PyVal.int 1)] =
      [("a", PyVal.int 1)]) ∧
    (mergeDict [("a", PyVal.int 1)] [("a", PyVal.int 2)] =
        alistSet [("a", PyVal.int 1)] "a" (PyVal.int 2) ∧
      alistGet (mergeDict [("a", PyVal.int 1)] [("a", PyVal.int 2)]) "a" =
        some (PyVal.int 2)) ∧
    (mergeDict [("skills", PyVal.list [PyVal.str "x"])]
        [("skills", PyVal.list [PyVal.str "x", PyVal.str "y"])] =
      alistSet [("skills", PyVal.list [PyVal.str "x"])] "skills"
        (PyVal.list [PyVal.str "x", PyVal.str "y"])) ∧
    (mergeDict [("skills", PyVal.list [PyVal.str "x"])]
        [("skills", PyVal.list [PyVal.str "x"])] =
      [("skills", PyVal.list [PyVal.str "x"])]) ∧
    (mergeDict [("a", PyVal.dict [("b", PyVal.int 1)])]
        [("a", PyVal.dict [("c", PyVal.int 2)])] =
      alistSet [("a", PyVal.dict [("b", PyVal.int 1)])] "a"
        (PyVal.dict (mergeDict [("b", PyVal.int 1)] [("c", PyVal.int 2)]))) ∧
    (alistGet (mergeDict [("a", PyVal.int 1)] [("b", PyVal.int 2)]) "a" =
      alistGet [("a", PyVal.int 1)] "a") :=
  ⟨merge_resume_changes_policy.1 [("a", PyVal.int 1)] rfl,
    merge_resume_changes_policy.2.1 [("a", PyVal.int 1)] "a"
      (PyVal.int 1) (PyVal.int 2) rfl rfl,
    (merge_resume_changes_policy.2.2.1 [("skills", PyVal.list [PyVal.str "x"])]
      "skills" [PyVal.str "x"] [PyVal.str "x", PyVal.str "y"] rfl).1
      (by decide),
    (merge_resume_changes_policy.2.2.1 [("skills", PyVal.list [PyVal.str "x"])]
      "skills" [PyVal.str "x"] [PyVal.str "x"] rfl).2 rfl,
    merge_resume_changes_policy.2.2.2.1 [("a", PyVal.dict [("b", PyVal.int 1)])]
      "a" [("b", PyVal.int 1)] [("c", PyVal.int 2)] rfl,
    merge_resume_changes_policy.2.2.2.2.1 [("a", PyVal.int 1)]
      [("b", PyVal.int 2)] "a" (by decide)⟩

/-! ## `batch_processor.py` — `ParallelFixProcessor.process_fixes_parallel`

A fix descriptor is a dict; `fix.get('type', 'unknown')` drives the
partition (a non-string `type` value never equals one of the three
independent type names, so it partitions exactly like `"unknown"`).
`_apply_fix` is dependency-injected as `applyFix` (in the source it is a
placeholder returning the document unchanged; the orchestration logic is
what is claimed), returning `Except.error` when the awaited coroutine
raises.  Dependent fixes run sequentially via a short-circuiting fold;
independent fixes all run against the post-dependent document
(`current_resume.copy()` is the identity on pure values) and
`asyncio.gather(..., return_exceptions=True)` yields their outcomes in
order, which are merged left to right, skipping failures. -/

def fixType (fix : List (String × PyVal)) : String :=
  match alistGet fix "type" with
  | some (PyVal.str s) => s
  | _ => "unknown"

def isIndependentFix (fix : List (String × PyVal)) : Bool :=
  fixType fix == "grammar" || fixType fix == "keyword" || fixType fix == "format"

/-- The merge loop of lines 254-256: fold the gathered outcomes into the
running document, skipping exceptions. -/
def mergeSkipErrors {E : Type} (cur : List (String × PyVal))
    (results : List (Except E (List (String × PyVal)))) :
    List (String × PyVal) :=
  results.foldl
    (fun acc r => match r with
      | Except.ok upd => mergeDict acc upd
      | Except.error _ => acc) cur

/-- `process_fixes_parallel` (batch_processor.py lines 204-258). -/
def process_fixes_parallel {E : Type}
    (applyFix : List (String × PyVal) → List (String × PyVal) →
      Except E (List (String × PyVal)))
    (resume : List (String × PyVal))
    (fixes : List (List (String × PyVal))) :
    Except E (List (String × PyVal)) :=
  match (fixes.filter (fun f => !(isIndependentFix f))).foldlM applyFix resume with
  | Except.error e => Except.error e
  | Except.ok cur =>
    Except.ok (mergeSkipErrors cur
      ((fixes.filter isIndependentFix).map (applyFix cur)))

/-- Counterexample to C9's "plus a report of which fixes actually applied":
the orchestrator returns only the merged document.  Two runs on the same
input in which different sets of fixes actually apply (in the first the
single independent fix fails, in the second it succeeds) return the
identical value, so the return value carries no report of the applied
fixes. -/
theorem process_fixes_no_report_counterexample :
    process_fixes_parallel (E := String)
        (fun _ _ => Except.error "fail") [("a", PyVal.int 1)]
        [[("type", PyVal.str "grammar")]] =
      Except.ok [("a", PyVal.int 1)] ∧
    process_fixes_parallel (E := String)
        (fun d _ => Except.ok d) [("a", PyVal.int 1)]
        [[("type", PyVal.str "grammar")]] =
      Except.ok [("a", PyVal.int 1)] ∧
    (Except.error "fail" :
        Except String (List (String × PyVal))) ≠
      Except.ok [("a", PyVal.int 1)] := by
  refine ⟨rfl, ?_, by simp⟩
  have hm : mergeDict [("a", PyVal.int 1)] [("a", PyVal.int 1)] =
      [("a", PyVal.int 1)] := mergeDict_self _ rfl
  show Except.ok
      (mergeSkipErrors [("a", PyVal.int 1)] [Except.ok [("a", PyVal.int 1)]]) =
    Except.ok [("a", PyVal.int 1)]
  rw [show mergeSkipErrors [("a", PyVal.int 1)] [Except.ok [("a", PyVal.int 1)]]
      = mergeDict [("a", PyVal.int 1)] [("a", PyVal.int 1)] from rfl, hm]

/-- C9 (amended): dependent fixes run first, sequentially, each consuming
the prior output, and a dependent-stage failure propagates to the caller
with no document returned; once the dependent stages succeed the run always
returns a best-effort merged document (it does not return a report of
applied fixes), and a failing independent fix is excluded from the merge —
the run equals the run with that fix deleted from the input. -/
theorem process_fixes_orchestration (E : Type) :
    (∀ (applyFix : List (String × PyVal) → List (String × PyVal) →
        Except E (List (String × PyVal))) (resume : List (String × PyVal))
      (fixes : List (List (String × PyVal))) (e : E),
      (fixes.filter (fun f => !(isIndependentFix f))).foldlM applyFix resume =
        Except.error e →
      process_fixes_parallel applyFix resume fixes = Except.error e) ∧
    (∀ (applyFix : List (String × PyVal) → List (String × PyVal) →
        Except E (List (String × PyVal))) (resume : List (String × PyVal))
      (fixes : List (List (String × PyVal))) (cur : List (String × PyVal)),
      (fixes.filter (fun f => !(isIndependentFix f))).foldlM applyFix resume =
        Except.ok cur →
      process_fixes_parallel applyFix resume fixes =
        Except.ok (mergeSkipErrors cur
          ((fixes.filter isIndependentFix).map (applyFix cur)))) ∧
    (∀ (applyFix : List (String × PyVal) → List (String × PyVal) →
        Except E (List (String × PyVal))) (resume : List (String × PyVal))
      (pre post : List (List (String × PyVal)))
      (f : List (String × PyVal)) (e : E) (cur : List (String × PyVal)),
      isIndependentFix f = true →
      ((pre ++ post).filter (fun g => !(isIndependentFix g))).foldlM applyFix
        resume = Except.ok cur →
      applyFix cur f = Except.error e →
      process_fixes_parallel applyFix resume (pre ++ f :: post) =
        process_fixes_parallel applyFix resume (pre ++ post)) := by
  refine ⟨?_, ?_, ?_⟩
  · intro applyFix resume fixes e h
    unfold process_fixes_parallel
    rw [h]
  · intro applyFix resume fixes cur h
    unfold process_fixes_parallel
    rw [h]
  · intro applyFix resume pre post f e cur hf hdep happly
    have hdepeq : (pre ++ f :: post).filter (fun g => !(isIndependentFix g)) =
        (pre ++ post).filter (fun g => !(isIndependentFix g)) := by
      rw [List.filter_append, List.filter_append, List.filter_cons,
        if_neg (by simp [hf])]
    have hindeq : (pre ++ f :: post).filter isIndependentFix =
        pre.filter isIndependentFix ++ f :: post.filter isIndependentFix := by
      rw [List.filter_append, List.filter_cons, if_pos hf]
    unfold process_fixes_parallel
    rw [hdepeq, hdep]
    show Except.ok (mergeSkipErrors cur
        (((pre ++ f :: post).filter isIndependentFix).map (applyFix cur))) =
      Except.ok (mergeSkipErrors cur
        (((pre ++ post).filter isIndependentFix).map (applyFix cur)))
    rw [hindeq, List.filter_append, List.map_append, List.map_cons, happly,
      List.map_append]
    unfold mergeSkipErrors
    rw [List.foldl_append, List.foldl_cons, List.foldl_append]

/-- Witness for C9 (amended) at concrete runs. -/
theorem process_fixes_orchestration_witness :
    (process_fixes_parallel (E := String) (fun _ _ => Except.error "dep")
        [("a", PyVal.int 1)] [[("type", PyVal.str "content")]] =
      Except.error "dep") ∧
    (process_fixes_parallel (E := String) (fun d _ => Except.ok d)
        [("a", PyVal.int 1)] [[("type", PyVal.str "grammar")]] =
      Except.ok (mergeSkipErrors (E := String) [("a", PyVal.int 1)]
        (([[("type", PyVal.str "grammar")]].filter isIndependentFix).map
          ((fun d _ => Except.ok d) [("a", PyVal.int 1)])))) ∧
    (process_fixes_parallel (E := String) (fun _ _ => Except.error "x")
        [("a", PyVal.int 1)] ([] ++ [("type", PyVal.str "grammar")] :: []) =
      process_fixes_parallel (E := String) (fun _ _ => Except.error "x")
        [("a", PyVal.int 1)] ([] ++ [])) :=
  ⟨(process_fixes_orchestration String).1 (fun _ _ => Except.error "dep")
      [("a", PyVal.int 1)] [[("type", PyVal.str "content")]] "dep" rfl,
    (process_fixes_orchestration String).2.1 (fun d _ => Except.ok d)
      [("a", PyVal.int 1)] [[("type", PyVal.str "grammar")]]
      [("a", PyVal.int 1)] rfl,
    (process_fixes_orchestration String).2.2 (fun _ _ => Except.error "x")
      [("a", PyVal.int 1)] [] [] [("type", PyVal.str "grammar")] "x"
      [("a", PyVal.int 1)] rfl rfl rfl⟩

end CareerPlus
